import Mathlib

/-!
Verification development for the sparsepy MCTS planner.

The Python sources are shallowly embedded: world states are finite sets of
atoms, rewards and probabilities are rationals, stateful methods become
explicit state-passing functions, and fallible constructors return `Except`.
Mutable parent back-references (used only by `Node.update`) are modelled by
an explicit list of per-node records along the backpropagation path.
-/

namespace Sparsepy

/-- Atoms are opaque proposition identifiers (strings in the source). -/
abbrev Atom := String

/-- A world state: the set of currently true atoms (`data_structure.py` uses
Python sets of strings). -/
abbrev WState := Finset Atom

/-- A `(negative_atoms, positive_atoms)` pair, used both for preconditions
and for goals. -/
abbrev Cond := Finset Atom × Finset Atom

/-- `pos <= state and not (neg & state)`: the positive atoms are contained in
the state and no negative atom is. -/
def condHolds (c : Cond) (s : WState) : Bool :=
  decide (c.2 ⊆ s ∧ c.1 ∩ s = ∅)

/-- `Effect` from `data_structure.py`: delete/add sets, probability, reward. -/
structure Effect where
  delete : Finset Atom
  add : Finset Atom
  probability : ℚ
  reward : ℚ
deriving DecidableEq

/-- `state - effect.delete | effect.add` from `Node.simulate_action`. -/
def applyEffect (s : WState) (e : Effect) : WState :=
  (s \ e.delete) ∪ e.add

/-- The probability setter of `Effect` (`data_structure.py`): the guard is the
chained comparison `0 < value > 1`, i.e. `0 < value and value > 1`; only then
is an `AttributeError` raised. -/
def effectProbabilityCheck (value : ℚ) : Except String ℚ :=
  if 0 < value ∧ value > 1 then
    .error "The value should be between 0 and 1 (inclusive)."
  else
    .ok value

/-- `Effect.__init__`: all validation lives in the probability setter. -/
def mkEffect (delete add : Finset Atom) (probability reward : ℚ) :
    Except String Effect := do
  let p ← effectProbabilityCheck probability
  .ok ⟨delete, add, p, reward⟩

/-! ## The Vose alias sampler (`vose.py`)

`Vose.__init__` pops from the *end* of the Python lists `small` and `large`;
we keep both lists reversed so that a pop is a head match and an append is a
cons.  The parallel arrays `self._prob` / `self._alias` are fused into a
single list of `(probability, primary, alias)` slots, appended in iteration
order. -/

/-- Sum of the weights of a weighted list. -/
def sumVals {α : Type} (l : List (ℚ × α)) : ℚ :=
  (l.map (·.1)).sum

/-- The two `while` loops of `Vose.__init__`: first pair small with large
elements, re-bucketing the large leftover, then flush whatever remains into
full slots.  Every iteration consumes a net one element, so the loops run
for exactly `small.length + large.length` turns; the structural `fuel`
argument carries exactly that bound (the `fuel = 0` arm is unreachable
while any element remains). -/
def voseLoopF {α : Type} : ℕ → List (ℚ × α) → List (ℚ × α) → List (ℚ × α × α)
  | 0, _, _ => []
  | fuel + 1, small, large =>
    match small, large with
    | s :: ss, l :: ls =>
      let w := l.1 + s.1 - 1
      if w < 1 then
        (s.1, s.2, l.2) :: voseLoopF fuel ((w, l.2) :: ss) ls
      else
        (s.1, s.2, l.2) :: voseLoopF fuel ss ((w, l.2) :: ls)
    | [], l :: ls => (1, l.2, l.2) :: voseLoopF fuel ([] : List (ℚ × α)) ls
    | s :: ss, [] => (1, s.2, s.2) :: voseLoopF fuel ss ([] : List (ℚ × α))
    | [], [] => []

/-- The slot construction of `Vose.__init__` on the small/large buckets. -/
def voseLoop {α : Type} (small large : List (ℚ × α)) : List (ℚ × α × α) :=
  voseLoopF (small.length + large.length) small large

/-- `Vose.__init__`: reject negative weights, reject a non-positive total,
normalise to mean 1, split into the small/large buckets and run the loops. -/
def voseInit {α : Type} (elements : List (ℚ × α)) :
    Except String (List (ℚ × α × α)) :=
  if elements.any (fun e => e.1 < 0) then
    .error "The probability/frequency of each element should be 0 or strictly greater than 0."
  else
    let total := sumVals elements
    if 0 < total then
      let norm := elements.map (fun e => (e.1 / total * elements.length, e.2))
      .ok (voseLoop ((norm.filter (fun e => e.1 < 1)).reverse)
                    ((norm.filter (fun e => 1 ≤ e.1)).reverse))
    else
      .error "The sum of the probability/frequency of all elements is not greater than 0."

/-- `Vose.random`: the first uniform draw selects the slot
(`i = int(random() * len(self._prob))`), the second decides between the
primary and the alias outcome (`self._prob[i] >= random()`).  The two draws
are the function's two arguments. -/
def voseRandom {α : Type} (table : List (ℚ × α × α)) (u1 u2 : ℚ) : Option α :=
  match table.get? (Int.toNat ⌊u1 * table.length⌋) with
  | none => none
  | some (p, a, b) => some (if u2 ≤ p then a else b)

/-- The mass a slot list assigns to an outcome, before dividing by the slot
count: a slot `(p, a, b)` returns `a` with conditional probability `p` and
`b` with `1 - p` once the slot has been drawn. -/
def slotMass {α : Type} [DecidableEq α] (slots : List (ℚ × α × α)) (o : α) : ℚ :=
  (slots.map (fun s => s.1 * (if s.2.1 = o then 1 else 0)
    + (1 - s.1) * (if s.2.2 = o then 1 else 0))).sum

/-- The probability that `voseRandom` returns `o` when the two draws are
independent ideal uniforms on `[0,1)`: each of the `n` slots is drawn with
probability `1/n`, and within a slot the cutoff comparison succeeds with
probability equal to the stored cutoff. -/
def voseMass {α : Type} [DecidableEq α] (table : List (ℚ × α × α)) (o : α) : ℚ :=
  slotMass table o / table.length

/-- The mass a weighted element list assigns to an outcome. -/
def elemMass {α : Type} [DecidableEq α] (l : List (ℚ × α)) (o : α) : ℚ :=
  (l.map (fun e => e.1 * (if e.2 = o then 1 else 0))).sum

/-! ## Actions and problems (`data_structure.py`) -/

/-- `Action` after construction: name, disjunctive preconditions, the effect
list (most probable first) and the alias table built from it. -/
structure ActionM where
  name : String
  preconditions : List Cond
  effects : List Effect
  vose : List (ℚ × Effect × Effect)
deriving DecidableEq

/-- Stable insertion (descending by probability) modelling Python's stable
`sorted(..., key=lambda effect: effect.probability, reverse=True)`: an
element is placed before the first strictly less probable one, so equally
probable effects keep their original relative order. -/
def insertByProb (e : Effect) : List Effect → List Effect
  | [] => [e]
  | f :: t => if f.probability ≤ e.probability then e :: f :: t
              else f :: insertByProb e t

/-- Stable descending sort of an effect list by probability. -/
def sortEffects (l : List Effect) : List Effect :=
  l.foldr insertByProb []

/-- Sum of the probabilities of a list of effects. -/
def totalProb (effects : List Effect) : ℚ :=
  (effects.map (·.probability)).sum

/-- The implicit no-op effect `Effect(set(), set(), p)` (default reward 0). -/
def noopEffect (p : ℚ) : Effect := ⟨∅, ∅, p, 0⟩

/-- The probability bookkeeping at the start of `Action.__init__`: reject a
total above 1, top up a total below 1 by appending the implicit no-op
effect, built through the `Effect` constructor (whose probability check can
itself fail, namely when the remaining probability exceeds 1). -/
def completeEffects (effects : List Effect) : Except String (List Effect) :=
  let total := totalProb effects
  if 1 < total then
    .error "The probability of the effects of an action must sum up to 1 or less than 1."
  else if total < 1 then
    match mkEffect ∅ ∅ (1 - total) 0 with
    | .error msg => .error msg
    | .ok noop => .ok (effects ++ [noop])
  else .ok effects

/-- `Action.__init__`: complete the effect distribution, sort the effects
by descending probability (Python's stable `sorted(..., reverse=True)`) and
build the Vose table from the `(probability, effect)` pairs. -/
def mkAction (name : String) (preconditions : List Cond) (effects : List Effect) :
    Except String ActionM :=
  match completeEffects effects with
  | .error msg => .error msg
  | .ok effs =>
    let sorted := sortEffects effs
    match voseInit (sorted.map (fun e => (e.probability, e))) with
    | .error msg => .error msg
    | .ok v => .ok ⟨name, preconditions, sorted, v⟩

/-- `Problem` from `data_structure.py`. -/
structure ProblemM where
  name : String
  init : WState
  goals : List Cond
  goalReward : ℚ
  actions : List ActionM

/-- `Problem.goal_reached`: some goal pair is satisfied by the state. -/
def goalReached (p : ProblemM) (s : WState) : Bool :=
  p.goals.any (fun g => condHolds g s)

/-- An action is applicable when some precondition pair holds
(`Node.__init__`'s list comprehension). -/
def applicableIn (a : ActionM) (s : WState) : Bool :=
  a.preconditions.any (fun c => condHolds c s)

/-! ## Search nodes (`search_structure.py`)

`Node` owns its children through the `children` dictionary, so the node is a
nested inductive; the `parent` back-reference (used only by `update`) is not
stored — backpropagation is modelled on an explicit path list below.  The
`problem` reference is passed to each operation instead of being stored. -/

/-- A search node: state, goal flag, statistics, the incoming action/effect
pair (`none` at the root), the untried/tried action bookkeeping and the
children dictionary keyed by `(action, effect)`. -/
inductive Node where
  | mk (state : WState) (isGoal : Bool)
       (action? : Option ActionM) (effect? : Option Effect)
       (visits : ℕ) (utility : ℚ)
       (untried : List ActionM)
       (tried : List (ActionM × ℚ × ℕ))
       (children : List ((ActionM × Effect) × Node))

def Node.state : Node → WState
  | .mk s _ _ _ _ _ _ _ _ => s

def Node.isGoal : Node → Bool
  | .mk _ g _ _ _ _ _ _ _ => g

def Node.action? : Node → Option ActionM
  | .mk _ _ a _ _ _ _ _ _ => a

def Node.effect? : Node → Option Effect
  | .mk _ _ _ e _ _ _ _ _ => e

def Node.visits : Node → ℕ
  | .mk _ _ _ _ v _ _ _ _ => v

def Node.utility : Node → ℚ
  | .mk _ _ _ _ _ u _ _ _ => u

def Node.untried : Node → List ActionM
  | .mk _ _ _ _ _ _ ua _ _ => ua

def Node.tried : Node → List (ActionM × ℚ × ℕ)
  | .mk _ _ _ _ _ _ _ ta _ => ta

def Node.children : Node → List ((ActionM × Effect) × Node)
  | .mk _ _ _ _ _ _ _ _ c => c

/-- First-match association lookup (a Python dictionary read). -/
def assocFind {κ ν : Type} [DecidableEq κ] (l : List (κ × ν)) (k : κ) : Option ν :=
  match l with
  | [] => none
  | (k', v) :: t => if k' = k then some v else assocFind t k

/-- Association update (a Python dictionary write): overwrite in place if the
key exists, otherwise append in insertion order. -/
def assocSet {κ ν : Type} [DecidableEq κ] (l : List (κ × ν)) (k : κ) (v : ν) :
    List (κ × ν) :=
  match l with
  | [] => [(k, v)]
  | (k', v') :: t => if k' = k then (k, v) :: t else (k', v') :: assocSet t k v

/-- `Node.__init__`: compute the goal flag and the applicable actions, start
with empty statistics, children and tried actions. -/
def mkNode (problem : ProblemM) (action? : Option ActionM) (effect? : Option Effect)
    (state : WState) : Node :=
  .mk state (goalReached problem state) action? effect? 0 0
    (problem.actions.filter (fun a => applicableIn a state)) [] []

/-- `Node.simulate_action` with the drawn effect passed in explicitly (the
draw itself is `action.outcome()`, i.e. two uniform draws through the
action's Vose table, or `action.effects[0]` in most-probable mode): return
the cached child for `(action, effect)` if present, otherwise create and
register a fresh child.  Returns `(child, updated self)`; `untried` and
`tried` are untouched. -/
def simulateAction (problem : ProblemM) (n : Node) (a : ActionM) (e : Effect) :
    Node × Node :=
  match assocFind n.children (a, e) with
  | some child => (child, n)
  | none =>
    let child := mkNode problem (some a) (some e) (applyEffect n.state e)
    (child,
      .mk n.state n.isGoal n.action? n.effect? n.visits n.utility
        n.untried n.tried (n.children ++ [((a, e), child)]))

/-- `Node.perform_action` (again with the effect draw passed in): Python's
`untried_actions.remove(action)` raises `ValueError` when the action is
absent — before any of the mutations — so the failing call leaves the node
unchanged.  On success the action moves from `untried` to `tried` with a
fresh `(0, 0)` entry, and the child is materialised via `simulateAction`. -/
def performAction (problem : ProblemM) (n : Node) (a : ActionM) (e : Effect) :
    Except String (Node × Node) :=
  if a ∈ n.untried then
    let n' : Node := .mk n.state n.isGoal n.action? n.effect? n.visits n.utility
      (n.untried.erase a) (assocSet n.tried a (0, 0)) n.children
    .ok (simulateAction problem n' a e)
  else
    .error "list.remove(x): x not in list"

/-- `random.choice(seq)` with the uniform draw resolved to an index: raises
`IndexError` on an empty sequence. -/
def choiceL {α : Type} (pick : ℕ) (l : List α) : Except String α :=
  match l with
  | [] => .error "Cannot choose from an empty sequence"
  | x :: t => .ok ((x :: t).getD (pick % (t.length + 1)) x)

/-- `Node.rollout_actions`: stop at a goal node or once the horizon is
reached, otherwise ask the rollout policy for an action (the policy can fail,
e.g. `random.choice` on an empty list) and descend along its most probable
effect (`action.effects[0]`, an `IndexError` on an effect-free action). -/
def rolloutActions (problem : ProblemM) (pol : Node → Except String ActionM)
    (n : Node) (depth horizon : ℕ) : Except String (Node × ℕ) :=
  if n.isGoal then
    .ok (n, depth)
  else if _h : depth < horizon then
    match pol n with
    | .error msg => .error msg
    | .ok a =>
      match a.effects with
      | [] => .error "list index out of range"
      | e :: _ => rolloutActions problem pol (simulateAction problem n a e).1
          (depth + 1) horizon
  else
    .ok (n, depth)
termination_by horizon - depth
decreasing_by omega

/-! ## Backpropagation (`Node.update`)

`update` walks the `parent` chain from the rollout's terminal node up to the
root.  Each visited node contributes its goal flag and its incoming effect's
reward to the running discounted reward, and — when its incoming action is a
real tried transition — bumps the `(reward, visits)` entry stored for that
action in its parent's `tried_actions` plus its own `utility`/`visits`.  The
chain consists of distinct node objects and each step touches only the
node's own statistics and the entry its parent holds for it, so the walk is
modelled as a list of per-node records, terminal node first, root last. -/

/-- One node of the backpropagation path.  `effectReward` is
`node.effect.reward` (`none` when `node.effect` is `None`); `tried` states
whether `node.action in node.parent.tried_actions` (irrelevant at the root);
`entry` is the `(reward, visits)` pair the parent's `tried_actions` holds
for `node.action` (irrelevant at the root or when untried). -/
structure PathNode where
  isGoal : Bool
  effectReward : Option ℚ
  tried : Bool
  entry : ℚ × ℕ
  utility : ℚ
  visits : ℕ
deriving DecidableEq

/-- One turn of the reward accumulation in `Node.update`:
`current_reward *= discounting`, plus the goal reward at goal nodes, plus
the incoming effect's reward. -/
def stepReward (d gR : ℚ) (r : ℚ) (n : PathNode) : ℚ :=
  r * d + (if n.isGoal then gR else 0) + (n.effectReward.getD 0)

/-- The `while` loop of `Node.update` on the path (terminal first, root
last): the root (`rest = []`, i.e. `node.parent` is `None`) updates only its
own statistics; a non-root node whose action is tried also bumps its
parent's entry; all other nodes are left alone, but the running reward keeps
accumulating through them. -/
def updateGo (d gR : ℚ) (r : ℚ) : List PathNode → List PathNode
  | [] => []
  | n :: rest =>
    let r' := stepReward d gR r n
    if rest.isEmpty then
      { n with utility := n.utility + r', visits := n.visits + 1 } :: updateGo d gR r' rest
    else if n.tried then
      { n with entry := (n.entry.1 + r', n.entry.2 + 1),
               utility := n.utility + r', visits := n.visits + 1 } :: updateGo d gR r' rest
    else
      n :: updateGo d gR r' rest

/-- The geometrically-discounted (factor `d` per depth step) sum of the
incoming-effect rewards along a path prefix, deepest node first: each step
up multiplies the accumulated sum by `d` and adds the node's own incoming
effect reward. -/
def discEffSum (d : ℚ) (p : List PathNode) : ℚ :=
  p.foldl (fun r n => r * d + n.effectReward.getD 0) 0

/-! ## The search driver (`mcts.py`) -/

/-- The guard of the selection `while` loop: descend while the node has no
untried actions, has children, and the horizon is not exceeded. -/
def selectCond (n : Node) (depth horizon : ℕ) : Bool :=
  n.untried.isEmpty && !n.children.isEmpty && depth ≤ horizon

/-- The guard of the expansion step: the node still has untried actions, the
horizon is not exceeded, and the node is not a goal. -/
def expandCond (n : Node) (depth horizon : ℕ) : Bool :=
  !n.untried.isEmpty && depth ≤ horizon && !n.isGoal

/-- The driver's default `select_action`,
`lambda node: choice(list(node.tried_actions.keys()))`: a uniform random
draw over the tried actions, with the draw resolved to an index. -/
def defaultSelectAction {α : Type} (pick : ℕ) (tried : List (α × ℚ × ℕ)) :
    Except String α :=
  choiceL pick (tried.map (·.1))

/-- The driver's default `rollout_action` (and `expand_action`),
`lambda node: choice(node.untried_actions)`. -/
def defaultRolloutAction (pick : ℕ) (n : Node) : Except String ActionM :=
  choiceL pick n.untried

/-- Stable insertion, descending by average reward `reward / visits`,
modelling the default `select_best`'s
`sorted(acts, key=lambda act: act.reward/act.visits, reverse=True)`. -/
def insertByRatio {α : Type} (x : α × ℚ × ℕ) :
    List (α × ℚ × ℕ) → List (α × ℚ × ℕ)
  | [] => [x]
  | y :: t => if y.2.1 / (y.2.2 : ℚ) < x.2.1 / (x.2.2 : ℚ) then x :: y :: t
              else y :: insertByRatio x t

/-- The driver's default `select_best`: sort the root's action records by
descending average reward and index the first element — an `IndexError`
when the list is empty. -/
def selectBestDefault {α : Type} (acts : List (α × ℚ × ℕ)) : Except String α :=
  match acts.foldr insertByRatio [] with
  | [] => .error "list index out of range"
  | a :: _ => .ok a.1

/-- The `while budget(iterations)` loop of `mcts`, with the whole search
iteration (select, expand, rollout, backpropagate) abstracted as `body` and
an explicit fuel bound modelling that the Python loop need not terminate. -/
def mctsLoop (budget : ℕ → Bool) (body : Node → Node) :
    ℕ → ℕ → Node → Node
  | 0, _, n => n
  | fuel + 1, its, n => if budget its then mctsLoop budget body fuel (its + 1) (body n) else n

/-- The `mcts` driver skeleton: build the root from the problem and the root
state, run the budgeted loop, collect the root's `tried_actions` into
`ActInfo` records and hand them to the default `select_best`. -/
def mctsRun (budget : ℕ → Bool) (body : Node → Node) (fuel : ℕ)
    (problem : ProblemM) (rootState : WState) : Except String ActionM :=
  selectBestDefault (mctsLoop budget body fuel 0 (mkNode problem none none rootState)).tried

/-! ## UCB1 selection (`main.py`'s `my_select_action`) -/

/-- The UCB1 score used by `my_select_action`:
`(1/math.sqrt(2)) * math.sqrt(math.log(node.visits)/visits) + reward/visits`
for a tried action record `(action, (reward, visits))` of a node visited
`N` times. -/
noncomputable def ucb1Score {α : Type} (N : ℕ) (rec : α × ℚ × ℕ) : ℝ :=
  (1 / Real.sqrt 2) * Real.sqrt (Real.log N / (rec.2.2 : ℝ)) + (rec.2.1 : ℝ) / (rec.2.2 : ℝ)

/-- One turn of `my_select_action`'s loop: take the record when no action is
held yet (`if not best_action[0]`) or when its score strictly exceeds the
held score. -/
def mySelectStep {α β : Type} [LinearOrder β] (score : α → β)
    (best : Option α × β) (y : α) : Option α × β :=
  match best.1 with
  | none => (some y, score y)
  | some _ => if score y > best.2 then (some y, score y) else best

/-- The loop of `my_select_action`: start from `best_action = (None, 0)` and
return the held action. -/
def mySelectLoop {α β : Type} [LinearOrder β] (score : α → β) (zero : β)
    (l : List α) : Option α :=
  (l.foldl (mySelectStep score) ((none : Option α), zero)).1

/-- Keep the higher-scored of the incumbent and the challenger, the
incumbent on ties. -/
def chooseBest {α β : Type} [LinearOrder β] (score : α → β) (best y : α) : α :=
  if score y > score best then y else best

/-- Modelled from the spec: "pick the maximizing action (ties broken by
encounter order)" — the first element attaining the maximal score, kept by a
left fold that replaces the incumbent only on a strictly larger score. -/
def argmaxFirst {α β : Type} [LinearOrder β] (score : α → β) :
    List α → Option α
  | [] => none
  | x :: t => some (t.foldl (chooseBest score) x)

/-- `my_select_action` of `main.py`: fold the tried-action records with the
UCB1 score, starting from `best_action = (None, 0)`, and return the held
action. -/
noncomputable def mySelectAction {α : Type} (N : ℕ) (tried : List (α × ℚ × ℕ)) :
    Option α :=
  (mySelectLoop (ucb1Score N) 0 tried).map (·.1)

/-- Whether the head of a backpropagation path (the rollout's terminal node)
is a goal node. -/
def pathHeadGoal : List PathNode → Bool
  | [] => false
  | n :: _ => n.isGoal

/-! ## Concrete instances used by the closed theorems below -/

/-- A certain effect adding the atom `x`. -/
def exEffectX : Effect := ⟨∅, {"x"}, 1, 0⟩

/-- An always-applicable action with the single certain effect `exEffectX`. -/
def exAction : ActionM :=
  ⟨"go", [(∅, ∅)], [exEffectX], [(1, exEffectX, exEffectX)]⟩

/-- An action whose only precondition requires the atom `p`. -/
def exActionBlocked : ActionM :=
  ⟨"blocked", [(∅, {"p"})], [⟨∅, ∅, 1, 0⟩], [(1, ⟨∅, ∅, 1, 0⟩, ⟨∅, ∅, 1, 0⟩)]⟩

/-- A problem whose single action is inapplicable in the initial state `∅`
and whose goal (`g` true) is not reached there. -/
def exProblemBlocked : ProblemM := ⟨"ex", ∅, [(∅, {"g"})], 1, [exActionBlocked]⟩

/-- A problem with one always-applicable action, goal not reached in `∅`. -/
def exProblemGo : ProblemM := ⟨"ex2", ∅, [(∅, {"g"})], 1, [exAction]⟩

/-- Two tried-action records: `a` with average reward 100, `b` with 0, both
visited once, under a node visited twice. -/
def exTried : List (String × ℚ × ℕ) := [("a", 100, 1), ("b", 0, 1)]

/-- A three-node backpropagation path: a goal terminal with effect reward 2
whose action is tried (entry `(5, 3)`), an untried middle node with effect
reward 1, and the root. -/
def exPath : List PathNode :=
  [⟨true, some 2, true, (5, 3), 0, 0⟩,
   ⟨false, some 1, false, (0, 0), 0, 0⟩,
   ⟨false, none, true, (7, 9), 1, 4⟩]

/-- A two-node backpropagation path whose terminal node's action was just
performed: its parent entry is the fresh `(0, 0)`. -/
def exPathFresh : List PathNode :=
  [⟨false, some 1, true, (0, 0), 0, 0⟩,
   ⟨false, none, false, (0, 0), 0, 0⟩]

/-- The weighted outcome list `[(0.5, A), (0.3, B), (0.2, C)]` of the spec's
alias-table scenario, with outcomes numbered. -/
def exElements : List (ℚ × ℕ) := [(1/2, 0), (3/10, 1), (1/5, 2)]

/-- The three-slot alias table `Vose.__init__` builds from `exElements`. -/
def exTable : List (ℚ × ℕ × ℕ) := [(3/5, 2, 0), (9/10, 1, 0), (1, 0, 0)]

/-- An effect list whose probabilities sum to `3/2 > 1`. -/
def exEffectsOver : List Effect := [⟨∅, ∅, 3/2, 0⟩]

/-- An effect list whose probabilities sum to `1/2 < 1`. -/
def exEffectsUnder : List Effect := [⟨∅, {"x"}, 1/2, 1⟩]

/-- The action built from `exEffectsUnder`: the `1/2` no-op has been
appended, the stable descending sort keeps the original effect first, and
the alias table holds one full slot per effect. -/
def exActionUnder : ActionM :=
  ⟨"under", [],
   [⟨∅, {"x"}, 1/2, 1⟩, ⟨∅, ∅, 1/2, 0⟩],
   [(1, ⟨∅, ∅, 1/2, 0⟩, ⟨∅, ∅, 1/2, 0⟩),
    (1, ⟨∅, {"x"}, 1/2, 1⟩, ⟨∅, {"x"}, 1/2, 1⟩)]⟩

/-! # Theorems -/

theorem Node.untried_mk (s g a e v u ua ta c) :
    (Node.mk s g a e v u ua ta c).untried = ua := rfl

theorem Node.tried_mk (s g a e v u ua ta c) :
    (Node.mk s g a e v u ua ta c).tried = ta := rfl

theorem Node.children_mk (s g a e v u ua ta c) :
    (Node.mk s g a e v u ua ta c).children = c := rfl

/-- Appending a fresh binding to an association list that misses the key
makes the lookup find it. -/
theorem assocFind_append_singleton {κ ν : Type} [DecidableEq κ]
    (l : List (κ × ν)) (k : κ) (v : ν) (h : assocFind l k = none) :
    assocFind (l ++ [(k, v)]) k = some v := by
  induction l with
  | nil => rw [List.nil_append, assocFind, if_pos rfl]
  | cons p t ih =>
    obtain ⟨k', v'⟩ := p
    rw [assocFind] at h
    by_cases hk : k' = k
    · rw [if_pos hk] at h; exact absurd h (by simp)
    · rw [if_neg hk] at h
      rw [List.cons_append, assocFind, if_neg hk]
      exact ih h

/-- The written binding is what a subsequent lookup of the same key finds. -/
theorem assocFind_assocSet {κ ν : Type} [DecidableEq κ]
    (l : List (κ × ν)) (k : κ) (v : ν) :
    assocFind (assocSet l k v) k = some v := by
  induction l with
  | nil => simp [assocSet, assocFind]
  | cons p t ih =>
    obtain ⟨k', v'⟩ := p
    rw [assocSet]
    by_cases hk : k' = k
    · rw [if_pos hk, assocFind, if_pos rfl]
    · rw [if_neg hk, assocFind, if_neg hk]
      exact ih

/-- **C7.** For a fixed node, repeated calls of `simulate_action` that
resolve to the same `(action, effect)` pair return the identical child node
— the one registered in the node's children map — never a duplicate, and
`simulate_action` never mutates `untried_actions` or `tried_actions`. -/
theorem simulate_action_idempotent (problem : ProblemM) (n : Node)
    (a : ActionM) (e : Effect) :
    assocFind (simulateAction problem n a e).2.children (a, e)
        = some (simulateAction problem n a e).1
    ∧ simulateAction problem (simulateAction problem n a e).2 a e
        = simulateAction problem n a e
    ∧ (simulateAction problem n a e).2.untried = n.untried
    ∧ (simulateAction problem n a e).2.tried = n.tried := by
  cases h : assocFind n.children (a, e) with
  | some c =>
    have h1 : simulateAction problem n a e = (c, n) := by
      rw [simulateAction, h]
    exact ⟨by rw [h1]; exact h, by rw [h1]; exact h1,
           by rw [h1], by rw [h1]⟩
  | none =>
    have h1 : simulateAction problem n a e
        = (mkNode problem (some a) (some e) (applyEffect n.state e),
           .mk n.state n.isGoal n.action? n.effect? n.visits n.utility
             n.untried n.tried
             (n.children ++ [((a, e), mkNode problem (some a) (some e)
               (applyEffect n.state e))])) := by
      rw [simulateAction, h]
    have hfind : assocFind (n.children ++ [((a, e), mkNode problem (some a)
        (some e) (applyEffect n.state e))]) (a, e)
        = some (mkNode problem (some a) (some e) (applyEffect n.state e)) :=
      assocFind_append_singleton _ _ _ h
    refine ⟨?_, ?_, ?_, ?_⟩
    · rw [h1]; exact hfind
    · rw [h1, simulateAction]
      simp only [Node.children_mk]
      rw [hfind]
    · rw [h1]; rfl
    · rw [h1]; rfl

/-- **C8 (counterexample).** The `Effect` constructor accepts a zero and
even a negative probability: the guard `0 < value > 1` is the conjunction
`0 < value and value > 1`, which never fires below 1.  This refutes the
claim that a probability outside `(0, 1]` is rejected. -/
theorem effect_zero_and_negative_probability_accepted :
    mkEffect ∅ ∅ 0 0 = .ok ⟨∅, ∅, 0, 0⟩
    ∧ mkEffect ∅ ∅ (-1/2) 0 = .ok ⟨∅, ∅, -1/2, 0⟩ := by
  constructor <;>
  · unfold mkEffect effectProbabilityCheck
    norm_num
    rfl

/-- **C8 (amended).** `Effect` construction fails iff the probability
exceeds 1: the chained-comparison guard `0 < value > 1` of the probability
setter rejects exactly the values above 1, so zero and negative
probabilities are accepted without error. -/
theorem effect_probability_validation (delete add : Finset Atom) (p r : ℚ) :
    mkEffect delete add p r
      = if 1 < p then .error "The value should be between 0 and 1 (inclusive)."
        else .ok ⟨delete, add, p, r⟩ := by
  unfold mkEffect effectProbabilityCheck
  by_cases h1 : 1 < p
  · rw [if_pos ⟨zero_lt_one.trans h1, h1⟩, if_pos h1]; rfl
  · rw [if_neg (fun hc => h1 hc.2), if_neg h1]; rfl

/-- **C10.** If the budget predicate is false already at iteration 0, the
driver performs no iteration, the root's `tried_actions` stays empty, and
the default `select_best` — which indexes the first element of the sorted
action list — fails on the empty list instead of returning an action. -/
theorem mcts_zero_iterations (budget : ℕ → Bool) (body : Node → Node)
    (fuel : ℕ) (problem : ProblemM) (st : WState) (h : budget 0 = false) :
    (mctsLoop budget body fuel 0 (mkNode problem none none st)).tried = []
    ∧ mctsRun budget body fuel problem st = .error "list index out of range" := by
  have hloop : mctsLoop budget body fuel 0 (mkNode problem none none st)
      = mkNode problem none none st := by
    cases fuel with
    | zero => rfl
    | succ f => simp [mctsLoop, h]
  constructor
  · rw [hloop]; rfl
  · unfold mctsRun; rw [hloop]; rfl

/-- Witness for C10 at a concrete always-false budget and problem. -/
theorem mcts_zero_iterations_witness :
    (fun _ : ℕ => false) 0 = false
    ∧ mctsRun (fun _ => false) id 3 exProblemGo ∅
        = .error "list index out of range" :=
  ⟨rfl, (mcts_zero_iterations (fun _ => false) id 3 exProblemGo ∅ rfl).2⟩

/-! ## Backpropagation lemmas -/

/-- `updateGo` always rebuilds the path node by node, threading the
discounted reward. -/
theorem updateGo_cons (d gR r : ℚ) (n : PathNode) (rest : List PathNode) :
    ∃ m, updateGo d gR r (n :: rest)
      = m :: updateGo d gR (stepReward d gR r n) rest := by
  rw [updateGo]
  split_ifs <;> exact ⟨_, rfl⟩

/-- Entry characterisation of `updateGo`: a non-root path node whose action
is tried sees its parent's `(reward, visits)` entry grow by the reward
accumulated over the path prefix up to it and by one visit. -/
theorem updateGo_get?_entry (d gR : ℚ) :
    ∀ (p : List PathNode) (r : ℚ) (h : ℕ) (pn : PathNode),
      p.get? h = some pn → h + 1 ≠ p.length → pn.tried = true →
      ((updateGo d gR r p).get? h).map PathNode.entry
        = some (pn.entry.1 + (p.take (h + 1)).foldl (stepReward d gR) r,
                pn.entry.2 + 1)
  | [], r, h, pn => by intro hg _ _; simp at hg
  | n :: rest, r, 0, pn => by
    intro hg hlen htr
    have hn : n = pn := by simpa using hg
    subst hn
    have hrest : rest ≠ [] := by
      intro he
      subst he
      simp at hlen
    have hne : rest.isEmpty = false := by
      simpa [List.isEmpty_iff] using hrest
    rw [updateGo, hne]
    simp only [Bool.false_eq_true, if_false, htr, if_true, List.get?_cons_zero,
      Option.map_some', List.take_succ_cons, List.take_zero, List.foldl_cons,
      List.foldl_nil]
  | n :: rest, r, h + 1, pn => by
    intro hg hlen htr
    have hg' : rest.get? h = some pn := by simpa using hg
    have hlen' : h + 1 ≠ rest.length := by
      intro hc
      exact hlen (by simp [hc])
    obtain ⟨m, hm⟩ := updateGo_cons d gR r n rest
    rw [hm, List.get?_cons_succ,
      updateGo_get?_entry d gR rest (stepReward d gR r n) h pn hg' hlen' htr,
      List.take_succ_cons, List.foldl_cons]

/-- The last path node — the root, whose `parent` is `None` — always gains
exactly one visit. -/
theorem updateGo_getLast?_visits (d gR : ℚ) :
    ∀ (p : List PathNode) (r : ℚ),
      ((updateGo d gR r p).getLast?).map PathNode.visits
        = (p.getLast?).map (fun n => n.visits + 1)
  | [], _ => rfl
  | [n], r => by
    rw [updateGo]
    simp [updateGo]
  | n :: m :: rest, r => by
    obtain ⟨x, hx⟩ := updateGo_cons d gR r n (m :: rest)
    rw [hx]
    obtain ⟨y, hy⟩ := updateGo_cons d gR (stepReward d gR r n) m rest
    rw [hy, List.getLast?_cons_cons, ← hy, List.getLast?_cons_cons]
    exact updateGo_getLast?_visits d gR (m :: rest) (stepReward d gR r n)

/-- On goal-free path segments the reward recursion only discounts and adds
effect rewards. -/
theorem foldl_stepReward_no_goal (d gR : ℚ) :
    ∀ (p : List PathNode) (r : ℚ), (∀ n ∈ p, n.isGoal = false) →
      p.foldl (stepReward d gR) r
        = p.foldl (fun r n => r * d + n.effectReward.getD 0) r
  | [], _, _ => rfl
  | n :: t, r, h => by
    rw [List.foldl_cons, List.foldl_cons]
    have hn : n.isGoal = false := h n (.head _)
    have hs : stepReward d gR r n = r * d + n.effectReward.getD 0 := by
      rw [stepReward, hn]
      simp
    rw [hs]
    exact foldl_stepReward_no_goal d gR t _ (fun m hm => h m (.tail _ hm))

/-- An additive shift of the accumulator of the effect-reward recursion is
discounted once per traversed node. -/
theorem foldl_eff_add (d : ℚ) :
    ∀ (p : List PathNode) (r c : ℚ),
      p.foldl (fun r n => r * d + n.effectReward.getD 0) (r + c)
        = p.foldl (fun r n => r * d + n.effectReward.getD 0) r + c * d ^ p.length
  | [], r, c => by simp
  | n :: t, r, c => by
    rw [List.foldl_cons, List.foldl_cons]
    have h1 : (r + c) * d + n.effectReward.getD 0
        = (r * d + n.effectReward.getD 0) + c * d := by ring
    rw [h1, foldl_eff_add d t _ (c * d), List.length_cons]
    ring

/-- The reward accumulated over a path prefix whose only possible goal node
is its head splits into the discounted effect-reward sum plus the goal
reward discounted once per step between the head and the prefix end. -/
theorem foldl_step_decomp (d gR : ℚ) (n : PathNode) (t : List PathNode)
    (ht : ∀ m ∈ t, m.isGoal = false) :
    (n :: t).foldl (stepReward d gR) 0
      = discEffSum d (n :: t) + (if n.isGoal then gR * d ^ t.length else 0) := by
  rw [List.foldl_cons, foldl_stepReward_no_goal d gR t _ ht, discEffSum,
    List.foldl_cons]
  have h1 : stepReward d gR 0 n
      = (0 * d + n.effectReward.getD 0) + (if n.isGoal then gR else 0) := by
    rw [stepReward]
    ring
  rw [h1, foldl_eff_add]
  by_cases hg : n.isGoal <;> simp [hg]

/-- **C1.** After `update(d)` runs on the terminal node of a rollout — so
that any goal node on the path is the terminal node itself, rollouts
stopping at the first goal — the root's total visit count increases by
exactly 1, and every ancestor whose incoming action is a real tried
transition sees its `(reward, visits)` entry in its parent's
`tried_actions` gain exactly one visit and a reward increment equal to the
geometrically-discounted (factor `d` per depth step) sum of the
incoming-effect rewards along the path below it, plus the goal reward —
counted at most once, at the first (terminal) goal node — discounted by
`d` per step. -/
theorem update_backprop (d gR : ℚ) (p : List PathNode)
    (hgoal : ∀ n ∈ p.tail, n.isGoal = false) :
    ((updateGo d gR 0 p).getLast?).map PathNode.visits
        = (p.getLast?).map (fun n => n.visits + 1)
    ∧ ∀ (h : ℕ) (pn : PathNode), p.get? h = some pn → h + 1 ≠ p.length →
        pn.tried = true →
        ((updateGo d gR 0 p).get? h).map PathNode.entry
          = some (pn.entry.1 + (discEffSum d (p.take (h + 1))
              + (if pathHeadGoal p then gR * d ^ h else 0)),
            pn.entry.2 + 1) := by
  constructor
  · exact updateGo_getLast?_visits d gR p 0
  · intro h pn hg hlen htr
    rw [updateGo_get?_entry d gR p 0 h pn hg hlen htr]
    cases p with
    | nil => simp at hg
    | cons n rest =>
      have hlt : h < (n :: rest).length := by
        by_contra hle
        rw [List.get?_eq_none.mpr (Nat.le_of_not_lt hle)] at hg
        exact absurd hg (by simp)
      have hh : h ≤ rest.length := by
        simpa [Nat.lt_succ_iff] using hlt
      have ht : ∀ m ∈ rest.take h, m.isGoal = false :=
        fun m hm => hgoal m (List.take_subset h rest hm)
      rw [List.take_succ_cons, foldl_step_decomp d gR n (rest.take h) ht,
        List.length_take, Nat.min_eq_left hh]
      rfl

/-- Witness for C1 on the concrete three-node path `exPath` with
discounting `1/2` and goal reward `10`. -/
theorem update_backprop_witness :
    (∀ n ∈ exPath.tail, n.isGoal = false)
    ∧ ((updateGo (1/2) 10 0 exPath).getLast?).map PathNode.visits
        = (exPath.getLast?).map (fun n => n.visits + 1)
    ∧ ((updateGo (1/2) 10 0 exPath).get? 0).map PathNode.entry
        = some ((⟨true, some 2, true, (5, 3), 0, 0⟩ : PathNode).entry.1
            + (discEffSum (1/2) (exPath.take (0 + 1))
              + (if pathHeadGoal exPath then 10 * (1/2 : ℚ) ^ 0 else 0)),
          (⟨true, some 2, true, (5, 3), 0, 0⟩ : PathNode).entry.2 + 1) :=
  ⟨by decide, (update_backprop (1/2) 10 exPath (by decide)).1,
   (update_backprop (1/2) 10 exPath (by decide)).2 0 _ rfl (by decide) rfl⟩

/-- `simulateAction` leaves the node's `untried`/`tried` bookkeeping alone
(only the children cache can change). -/
theorem simulateAction_preserves_bookkeeping (problem : ProblemM) (n : Node)
    (a : ActionM) (e : Effect) :
    (simulateAction problem n a e).2.untried = n.untried
    ∧ (simulateAction problem n a e).2.tried = n.tried := by
  cases h : assocFind n.children (a, e) <;>
    (rw [simulateAction, h]; exact ⟨rfl, rfl⟩)

/-- **C6.** `perform_action` on an action not in `untried_actions` fails
with the `ValueError` of `list.remove` — raised before any mutation, so a
failing call leaves the node unchanged.  After a successful call the action
is gone from `untried_actions` and registered in `tried_actions` with
accumulated reward 0 and visit count 0, and the entry's visit count becomes
1 at the next `update` that passes through the resulting child. -/
theorem perform_action_contract (problem : ProblemM) (n : Node) (a : ActionM)
    (e : Effect) :
    (a ∉ n.untried → performAction problem n a e
        = .error "list.remove(x): x not in list")
    ∧ (a ∈ n.untried → n.untried.Nodup →
        ∃ c n', performAction problem n a e = .ok (c, n')
          ∧ a ∉ n'.untried
          ∧ assocFind n'.tried a = some (0, 0))
    ∧ (∀ (d gR : ℚ) (p : List PathNode) (h : ℕ) (pn : PathNode),
        p.get? h = some pn → h + 1 ≠ p.length → pn.tried = true →
        pn.entry = (0, 0) →
        ((updateGo d gR 0 p).get? h).map (fun m => m.entry.2) = some 1) := by
  refine ⟨?_, ?_, ?_⟩
  · intro hno
    rw [performAction, if_neg hno]
  · intro hin hnd
    rw [performAction, if_pos hin]
    set n' : Node := Node.mk n.state n.isGoal n.action? n.effect? n.visits
      n.utility (n.untried.erase a) (assocSet n.tried a (0, 0)) n.children
      with hn'
    refine ⟨(simulateAction problem n' a e).1,
            (simulateAction problem n' a e).2, rfl, ?_, ?_⟩
    · rw [(simulateAction_preserves_bookkeeping problem n' a e).1]
      show a ∉ n.untried.erase a
      intro hmem
      exact ((List.Nodup.mem_erase_iff hnd).mp hmem).1 rfl
    · rw [(simulateAction_preserves_bookkeeping problem n' a e).2]
      show assocFind (assocSet n.tried a (0, 0)) a = some (0, 0)
      exact assocFind_assocSet _ _ _
  · intro d gR p h pn hg hlen htr hent
    obtain ⟨m, hm, hme⟩ :=
      Option.map_eq_some'.mp (updateGo_get?_entry d gR p 0 h pn hg hlen htr)
    rw [hm]
    simp [hme, hent]

/-- Witness for C6: the blocked action is rejected on `exProblemGo`'s root,
`exAction` is performed successfully, and a fresh `(0, 0)` entry reaches
visit count 1 at the next update. -/
theorem perform_action_contract_witness :
    exActionBlocked ∉ (mkNode exProblemGo none none ∅).untried
    ∧ performAction exProblemGo (mkNode exProblemGo none none ∅)
        exActionBlocked exEffectX = .error "list.remove(x): x not in list"
    ∧ (∃ c n', performAction exProblemGo (mkNode exProblemGo none none ∅)
          exAction exEffectX = .ok (c, n')
        ∧ exAction ∉ n'.untried
        ∧ assocFind n'.tried exAction = some (0, 0))
    ∧ ((updateGo (9/10) 1 0 exPathFresh).get? 0).map (fun m => m.entry.2)
        = some 1 :=
  ⟨by decide,
   (perform_action_contract exProblemGo (mkNode exProblemGo none none ∅)
      exActionBlocked exEffectX).1 (by decide),
   (perform_action_contract exProblemGo (mkNode exProblemGo none none ∅)
      exAction exEffectX).2.1 (by decide) (by decide),
   (perform_action_contract exProblemGo (mkNode exProblemGo none none ∅)
      exAction exEffectX).2.2 (9/10) 1 exPathFresh 0 _ rfl (by decide) rfl rfl⟩

/-! ## Action construction lemmas -/

/-- A successful `Effect` construction returns exactly the given fields. -/
theorem mkEffect_ok_elim (d a : Finset Atom) (p r : ℚ) (e : Effect)
    (h : mkEffect d a p r = .ok e) : e = ⟨d, a, p, r⟩ := by
  unfold mkEffect effectProbabilityCheck at h
  by_cases hc : 0 < p ∧ p > 1
  · rw [if_pos hc] at h
    have h' : (Except.error "The value should be between 0 and 1 (inclusive)."
        : Except String Effect) = .ok e := h
    exact absurd h' (by simp)
  · rw [if_neg hc] at h
    have h' : (Except.ok (⟨d, a, p, r⟩ : Effect) : Except String Effect)
        = .ok e := h
    exact (Except.ok.inj h').symm

/-- The effect-completion step of `Action.__init__`: a total above 1 is an
error, and a successful completion has total probability exactly 1 and, for
a total below 1, contains the appended no-op effect. -/
theorem completeEffects_ok (effects : List Effect) :
    (1 < totalProb effects → completeEffects effects
        = .error "The probability of the effects of an action must sum up to 1 or less than 1.")
    ∧ (∀ effs, completeEffects effects = .ok effs →
        totalProb effs = 1
        ∧ (totalProb effects < 1 →
            noopEffect (1 - totalProb effects) ∈ effs)) := by
  constructor
  · intro h
    unfold completeEffects
    rw [if_pos h]
  · intro effs h
    unfold completeEffects at h
    by_cases h1 : 1 < totalProb effects
    · rw [if_pos h1] at h
      exact absurd h (by simp)
    · rw [if_neg h1] at h
      by_cases h2 : totalProb effects < 1
      · rw [if_pos h2] at h
        cases hm : mkEffect ∅ ∅ (1 - totalProb effects) 0 with
        | error msg =>
          rw [hm] at h
          have h' : (Except.error msg : Except String (List Effect))
              = .ok effs := h
          exact absurd h' (by simp)
        | ok noop =>
          rw [hm] at h
          have h' : (Except.ok (effects ++ [noop])
              : Except String (List Effect)) = .ok effs := h
          have he : effs = effects ++ [noop] := (Except.ok.inj h').symm
          have hnoop : noop = noopEffect (1 - totalProb effects) :=
            mkEffect_ok_elim _ _ _ _ _ hm
          subst he
          constructor
          · have hsum : totalProb (effects
                ++ [noopEffect (1 - totalProb effects)])
                = totalProb effects + (1 - totalProb effects) := by
              unfold totalProb noopEffect
              rw [List.map_append, List.sum_append]
              simp
            rw [hnoop, hsum]
            ring
          · intro _
            rw [hnoop]
            simp
      · rw [if_neg h2] at h
        have h' : (Except.ok effects : Except String (List Effect))
            = .ok effs := h
        have he : effs = effects := (Except.ok.inj h').symm
        subst he
        exact ⟨le_antisymm (not_lt.mp h1) (not_lt.mp h2),
               fun hc => absurd hc h2⟩

/-- Stable insertion permutes to consing. -/
theorem insertByProb_perm (e : Effect) (l : List Effect) :
    (insertByProb e l).Perm (e :: l) := by
  induction l with
  | nil => exact .refl _
  | cons f t ih =>
    rw [insertByProb]
    by_cases h : f.probability ≤ e.probability
    · rw [if_pos h]
    · rw [if_neg h]
      exact (ih.cons f).trans (List.Perm.swap e f t)

/-- The probability-descending sort is a permutation of its input. -/
theorem sortEffects_perm (l : List Effect) : (sortEffects l).Perm l := by
  induction l with
  | nil => exact .refl _
  | cons e t ih =>
    exact (insertByProb_perm e (sortEffects t)).trans (ih.cons e)

/-- Permutations preserve the probability total. -/
theorem totalProb_perm {l₁ l₂ : List Effect} (h : l₁.Perm l₂) :
    totalProb l₁ = totalProb l₂ :=
  (h.map _).sum_eq

/-- **C5.** An `Action` whose effects' probabilities total more than 1 is
rejected; when the total is below 1 the implicit no-op effect (empty
delete/add, reward 0, the remaining probability) is appended, so every
successfully constructed action's effect probabilities sum to exactly 1. -/
theorem action_probability_completion (name : String) (pres : List Cond)
    (effects : List Effect) :
    (1 < totalProb effects → mkAction name pres effects
        = .error "The probability of the effects of an action must sum up to 1 or less than 1.")
    ∧ (∀ a, mkAction name pres effects = .ok a →
        totalProb a.effects = 1
        ∧ (totalProb effects < 1 →
            noopEffect (1 - totalProb effects) ∈ a.effects)) := by
  constructor
  · intro h
    unfold mkAction
    rw [(completeEffects_ok effects).1 h]
  · intro a ha
    unfold mkAction at ha
    cases hc : completeEffects effects with
    | error msg =>
      rw [hc] at ha
      have ha' : (Except.error msg : Except String ActionM) = .ok a := ha
      exact absurd ha' (by simp)
    | ok effs =>
      rw [hc] at ha
      have ha' : (match voseInit ((sortEffects effs).map
            (fun e => (e.probability, e))) with
          | .error msg => (.error msg : Except String ActionM)
          | .ok v => .ok ⟨name, pres, sortEffects effs, v⟩) = .ok a := ha
      cases hv : voseInit ((sortEffects effs).map
          (fun e => (e.probability, e))) with
      | error msg =>
        rw [hv] at ha'
        have ha2 : (Except.error msg : Except String ActionM) = .ok a := ha'
        exact absurd ha2 (by simp)
      | ok v =>
        rw [hv] at ha'
        have ha2 : (Except.ok (⟨name, pres, sortEffects effs, v⟩ : ActionM)
            : Except String ActionM) = .ok a := ha'
        have haeq : a = ⟨name, pres, sortEffects effs, v⟩ :=
          (Except.ok.inj ha2).symm
        subst haeq
        have hce := (completeEffects_ok effects).2 effs hc
        constructor
        · show totalProb (sortEffects effs) = 1
          rw [totalProb_perm (sortEffects_perm _)]
          exact hce.1
        · intro hlt
          show noopEffect (1 - totalProb effects) ∈ sortEffects effs
          rw [(sortEffects_perm _).mem_iff]
          exact hce.2 hlt

/-- Witness for C5: an over-probability effect list is rejected, and the
half-probability effect list is completed by a `1/2` no-op so that the
constructed action's probabilities total exactly 1. -/
theorem action_probability_completion_witness :
    mkAction "over" [] exEffectsOver
      = .error "The probability of the effects of an action must sum up to 1 or less than 1."
    ∧ (totalProb exActionUnder.effects = 1
       ∧ (totalProb exEffectsUnder < 1 →
           noopEffect (1 - totalProb exEffectsUnder) ∈ exActionUnder.effects)) :=
  ⟨(action_probability_completion "over" [] exEffectsOver).1
     (by with_unfolding_all decide),
   (action_probability_completion "under" [] exEffectsUnder).2 exActionUnder
     (by with_unfolding_all rfl)⟩

/-! ## Rollout lemmas -/

/-- A rollout from a non-goal node below the horizon asks the default
rollout policy for an action; with no untried actions `random.choice` fails
on the empty sequence. -/
theorem rollout_empty_untried_error (problem : ProblemM) (pick : ℕ) (n : Node)
    (depth horizon : ℕ) (hg : n.isGoal = false) (hd : depth < horizon)
    (hu : n.untried = []) :
    rolloutActions problem (defaultRolloutAction pick) n depth horizon
      = .error "Cannot choose from an empty sequence" := by
  rw [rolloutActions]
  simp [hg, hd, defaultRolloutAction, hu, choiceL]

/-- A rollout returns the node itself at a goal node or once the horizon is
reached. -/
theorem rollout_stops (problem : ProblemM) (pol : Node → Except String ActionM)
    (n : Node) (depth horizon : ℕ) (h : n.isGoal = true ∨ horizon ≤ depth) :
    rolloutActions problem pol n depth horizon = .ok (n, depth) := by
  rw [rolloutActions]
  by_cases hg : n.isGoal = true
  · simp [hg]
  · cases h with
    | inl hg' => exact absurd hg' hg
    | inr hh => simp [hg, Nat.not_lt.mpr hh]

/-- **C4 (counterexample).** A non-goal node over a state with no applicable
actions, reached by a rollout at a depth below the horizon, does not act as
a leaf: `rollout_actions` hands it to the default rollout policy, and
`random.choice` raises on the empty `untried_actions` list. -/
theorem rollout_crashes_on_no_applicable_leaf :
    (mkNode exProblemBlocked none none ∅).untried = []
    ∧ (mkNode exProblemBlocked none none ∅).isGoal = false
    ∧ rolloutActions exProblemBlocked (defaultRolloutAction 0)
        (mkNode exProblemBlocked none none ∅) 1 5
        = .error "Cannot choose from an empty sequence" :=
  ⟨rfl, rfl,
   rollout_empty_untried_error exProblemBlocked 0 _ 1 5 rfl (by decide) rfl⟩

/-- **C4 (amended).** Constructing a node from a state with no applicable
actions succeeds with an empty `untried_actions` list; the selection loop
and the expansion step both stop at such a node; a rollout terminates at it
without error exactly when the node is a goal or the horizon is reached —
otherwise the rollout invokes the rollout policy on the node, and the
default `random.choice` policy fails on the empty action list. -/
theorem no_applicable_action_behaviour :
    (∀ (problem : ProblemM) (a? : Option ActionM) (e? : Option Effect)
       (st : WState), (∀ a ∈ problem.actions, applicableIn a st = false) →
       (mkNode problem a? e? st).untried = [])
    ∧ (∀ (n : Node) (depth horizon : ℕ), n.untried = [] → n.children = [] →
        selectCond n depth horizon = false)
    ∧ (∀ (n : Node) (depth horizon : ℕ), n.untried = [] →
        expandCond n depth horizon = false)
    ∧ (∀ (problem : ProblemM) (pick : ℕ) (n : Node) (depth horizon : ℕ),
        n.isGoal = false → depth < horizon → n.untried = [] →
        rolloutActions problem (defaultRolloutAction pick) n depth horizon
          = .error "Cannot choose from an empty sequence")
    ∧ (∀ (problem : ProblemM) (pol : Node → Except String ActionM) (n : Node)
        (depth horizon : ℕ), n.isGoal = true ∨ horizon ≤ depth →
        rolloutActions problem pol n depth horizon = .ok (n, depth)) := by
  refine ⟨?_, ?_, ?_, ?_, ?_⟩
  · intro problem a? e? st h
    show problem.actions.filter (fun a => applicableIn a st) = []
    rw [List.filter_eq_nil_iff]
    intro a ha
    simp [h a ha]
  · intro n depth horizon hu hc
    simp [selectCond, hu, hc]
  · intro n depth horizon hu
    simp [expandCond, hu]
  · exact rollout_empty_untried_error
  · exact rollout_stops

/-- Witness for C4's amended statement on the blocked example problem. -/
theorem no_applicable_action_behaviour_witness :
    (mkNode exProblemBlocked none none ∅).untried = []
    ∧ selectCond (mkNode exProblemBlocked none none ∅) 1 5 = false
    ∧ expandCond (mkNode exProblemBlocked none none ∅) 1 5 = false
    ∧ rolloutActions exProblemBlocked (defaultRolloutAction 1)
        (mkNode exProblemBlocked none none ∅) 2 5
        = .error "Cannot choose from an empty sequence"
    ∧ rolloutActions exProblemBlocked (defaultRolloutAction 1)
        (mkNode exProblemBlocked none none ∅) 7 5
        = .ok (mkNode exProblemBlocked none none ∅, 7) :=
  ⟨no_applicable_action_behaviour.1 exProblemBlocked none none ∅ (by decide),
   no_applicable_action_behaviour.2.1 _ 1 5 rfl rfl,
   no_applicable_action_behaviour.2.2.1 _ 1 5 rfl,
   no_applicable_action_behaviour.2.2.2.1 exProblemBlocked 1 _ 2 5 rfl
     (by decide) rfl,
   no_applicable_action_behaviour.2.2.2.2 exProblemBlocked
     (defaultRolloutAction 1) _ 7 5 (Or.inr (by decide))⟩

/-! ## Action selection lemmas -/

/-- Once `my_select_action`'s loop holds an action, it performs the plain
first-argmax fold: the incumbent is replaced only on a strictly larger
score. -/
theorem mySelectStep_some {α β : Type} [LinearOrder β] (score : α → β)
    (b : α) (sb : β) (y : α) :
    mySelectStep score ((some b : Option α), sb) y
      = if score y > sb then ((some y : Option α), score y)
        else ((some b : Option α), sb) := rfl

theorem mySelectStep_none {α β : Type} [LinearOrder β] (score : α → β)
    (zero : β) (y : α) :
    mySelectStep score ((none : Option α), zero) y
      = ((some y : Option α), score y) := rfl

theorem mySelectLoop_aux {α β : Type} [LinearOrder β] (score : α → β) :
    ∀ (t : List α) (b : α),
      t.foldl (mySelectStep score) ((some b : Option α), score b)
      = (some (t.foldl (chooseBest score) b),
         score (t.foldl (chooseBest score) b))
  | [], _ => rfl
  | y :: t, b => by
    rw [List.foldl_cons, List.foldl_cons, mySelectStep_some, chooseBest]
    by_cases h : score y > score b
    · rw [if_pos h, if_pos h]
      exact mySelectLoop_aux score t y
    · rw [if_neg h, if_neg h]
      exact mySelectLoop_aux score t b

/-- The `my_select_action` loop computes the first maximizer: ties keep the
earlier record because replacement needs a strictly larger score. -/
theorem mySelectLoop_eq_argmaxFirst {α β : Type} [LinearOrder β]
    (score : α → β) (zero : β) (l : List α) :
    mySelectLoop score zero l = argmaxFirst score l := by
  cases l with
  | nil => rfl
  | cons x t =>
    unfold mySelectLoop argmaxFirst
    rw [List.foldl_cons, mySelectStep_none, mySelectLoop_aux score t x]

/-- **C2 (counterexample).** The driver's *default* `select_action` is
`choice(list(node.tried_actions.keys()))`, a uniform random draw: on
`exTried` with the second slot drawn it returns `b`, while the UCB1
maximizer (ties by encounter order) is `a` — the default does not implement
UCB1. -/
theorem default_select_action_not_ucb1 :
    defaultSelectAction 1 exTried = .ok "b"
    ∧ (argmaxFirst (ucb1Score 2) exTried).map (·.1) = some "a"
    ∧ ("b" : String) ≠ "a" := by
  refine ⟨rfl, ?_, by decide⟩
  have hs : ¬ (ucb1Score 2 (("b", (0 : ℚ), 1) : String × ℚ × ℕ)
      > ucb1Score 2 (("a", (100 : ℚ), 1) : String × ℚ × ℕ)) := by
    unfold ucb1Score
    rw [not_lt]
    apply add_le_add_left
    push_cast
    norm_num
  show (argmaxFirst (ucb1Score 2)
      [("a", (100 : ℚ), 1), ("b", (0 : ℚ), 1)]).map (·.1) = some "a"
  show (some (List.foldl (chooseBest (ucb1Score 2))
      (("a", (100 : ℚ), 1) : String × ℚ × ℕ)
      [("b", (0 : ℚ), 1)])).map (·.1) = some "a"
  rw [List.foldl_cons, List.foldl_nil, chooseBest, if_neg hs]
  rfl

/-- **C2 (amended).** UCB1 selection lives in `main.py`'s
`my_select_action`, passed to the driver by the caller (the driver's default
is the uniform random draw above): it scores a tried record
`(a, (reward, visits))` as `(1/√2)·√(ln N / visits) + reward/visits` and
returns the first action attaining the maximal score, ties broken by
encounter order. -/
theorem my_select_action_is_ucb1_argmax {α : Type} (N : ℕ)
    (tried : List (α × ℚ × ℕ)) :
    mySelectAction N tried = (argmaxFirst (ucb1Score N) tried).map (·.1) := by
  unfold mySelectAction
  rw [mySelectLoop_eq_argmaxFirst]

/-! ## Sampler construction validation -/

/-- **C9.** `Vose.__init__` fails exactly on an empty list, a negative
weight, or a non-positive total weight, and succeeds on every non-empty
list of nonnegative weights with positive sum (an empty list is subsumed
by the zero-total check: its total is 0). -/
theorem vose_init_validation {α : Type} (elements : List (ℚ × α)) :
    ((voseInit elements).isOk = false ↔
      (elements = [] ∨ (∃ e ∈ elements, e.1 < 0) ∨ sumVals elements ≤ 0))
    ∧ ((∀ e ∈ elements, 0 ≤ e.1) → 0 < sumVals elements →
        (voseInit elements).isOk = true) := by
  have hmain : (voseInit elements).isOk = false ↔
      ((∃ e ∈ elements, e.1 < 0) ∨ sumVals elements ≤ 0) := by
    unfold voseInit
    by_cases hneg : elements.any (fun e => e.1 < 0) = true
    · rw [if_pos hneg]
      simp only [Except.isOk, Except.toBool]
      constructor
      · intro _
        left
        obtain ⟨e, he, hlt⟩ := List.any_eq_true.mp hneg
        exact ⟨e, he, by simpa using hlt⟩
      · intro _
        trivial
    · rw [if_neg hneg]
      simp only []
      by_cases htot : 0 < sumVals elements
      · rw [if_pos htot]
        simp only [Except.isOk, Except.toBool]
        constructor
        · intro h
          exact absurd h (by simp)
        · rintro (⟨e, he, hlt⟩ | hle)
          · have hany : elements.any (fun e => e.1 < 0) = true := by
              rw [List.any_eq_true]
              exact ⟨e, he, by simpa using hlt⟩
            exact absurd hany hneg
          · exact absurd htot (not_lt.mpr hle)
      · rw [if_neg htot]
        simp only [Except.isOk, Except.toBool]
        exact ⟨fun _ => Or.inr (not_lt.mp htot), fun _ => trivial⟩
  constructor
  · rw [hmain]
    constructor
    · exact fun h => Or.inr h
    · rintro (hemp | h)
      · exact Or.inr (by simp [hemp, sumVals])
      · exact h
  · intro hpos htot
    cases hok : (voseInit elements).isOk
    · rcases hmain.mp hok with ⟨e, he, hlt⟩ | hle
      · exact absurd hlt (not_lt.mpr (hpos e he))
      · exact absurd htot (not_lt.mpr hle)
    · rfl

/-! ## Alias-table lemmas -/

theorem sumVals_cons {α : Type} (e : ℚ × α) (l : List (ℚ × α)) :
    sumVals (e :: l) = e.1 + sumVals l := by
  simp [sumVals]

theorem sumVals_append {α : Type} (l₁ l₂ : List (ℚ × α)) :
    sumVals (l₁ ++ l₂) = sumVals l₁ + sumVals l₂ := by
  simp [sumVals]

theorem sumVals_reverse {α : Type} (l : List (ℚ × α)) :
    sumVals l.reverse = sumVals l := by
  simp [sumVals, List.sum_reverse]

theorem sumVals_perm {α : Type} {l₁ l₂ : List (ℚ × α)} (h : l₁.Perm l₂) :
    sumVals l₁ = sumVals l₂ :=
  (h.map _).sum_eq

theorem elemMass_cons {α : Type} [DecidableEq α] (e : ℚ × α)
    (l : List (ℚ × α)) (o : α) :
    elemMass (e :: l) o = e.1 * (if e.2 = o then 1 else 0) + elemMass l o := by
  simp [elemMass]

theorem elemMass_append {α : Type} [DecidableEq α] (l₁ l₂ : List (ℚ × α))
    (o : α) : elemMass (l₁ ++ l₂) o = elemMass l₁ o + elemMass l₂ o := by
  simp [elemMass]

theorem elemMass_reverse {α : Type} [DecidableEq α] (l : List (ℚ × α))
    (o : α) : elemMass l.reverse o = elemMass l o := by
  simp [elemMass, List.sum_reverse]

theorem elemMass_perm {α : Type} [DecidableEq α] {l₁ l₂ : List (ℚ × α)}
    (h : l₁.Perm l₂) (o : α) : elemMass l₁ o = elemMass l₂ o :=
  (h.map _).sum_eq

theorem slotMass_cons {α : Type} [DecidableEq α] (s : ℚ × α × α)
    (l : List (ℚ × α × α)) (o : α) :
    slotMass (s :: l) o = (s.1 * (if s.2.1 = o then 1 else 0)
      + (1 - s.1) * (if s.2.2 = o then 1 else 0)) + slotMass l o := by
  simp [slotMass]

/-- A list whose values are all below 1 has value sum at most its length. -/
theorem sumVals_le_length {α : Type} :
    ∀ (l : List (ℚ × α)), (∀ e ∈ l, e.1 < 1) → sumVals l ≤ l.length
  | [], _ => by simp [sumVals]
  | e :: t, h => by
    rw [sumVals_cons, List.length_cons]
    have h1 : e.1 < 1 := h e (.head _)
    have h2 : sumVals t ≤ t.length := sumVals_le_length t
      (fun x hx => h x (.tail _ hx))
    push_cast
    linarith

/-- A list whose values are all at least 1 has value sum at least its
length. -/
theorem length_le_sumVals {α : Type} :
    ∀ (l : List (ℚ × α)), (∀ e ∈ l, 1 ≤ e.1) → (l.length : ℚ) ≤ sumVals l
  | [], _ => by simp [sumVals]
  | e :: t, h => by
    rw [sumVals_cons, List.length_cons]
    have h1 : 1 ≤ e.1 := h e (.head _)
    have h2 : (t.length : ℚ) ≤ sumVals t := length_le_sumVals t
      (fun x hx => h x (.tail _ hx))
    push_cast
    linarith

/-- Value sum of the normalisation `e.1 / t * c`. -/
theorem sumVals_norm_scale {α : Type} (t c : ℚ) :
    ∀ (l : List (ℚ × α)),
      sumVals (l.map (fun e => (e.1 / t * c, e.2))) = sumVals l / t * c
  | [] => by simp [sumVals]
  | e :: l => by
    rw [List.map_cons, sumVals_cons, sumVals_cons,
      sumVals_norm_scale t c l]
    ring

/-- Outcome mass of the normalisation `e.1 / t * c`. -/
theorem elemMass_norm_scale {α : Type} [DecidableEq α] (t c : ℚ) (o : α) :
    ∀ (l : List (ℚ × α)),
      elemMass (l.map (fun e => (e.1 / t * c, e.2))) o
        = elemMass l o / t * c
  | [] => by simp [elemMass]
  | e :: l => by
    rw [List.map_cons, elemMass_cons, elemMass_cons,
      elemMass_norm_scale t c o l]
    ring

/-- The alias loop fills exactly one slot per element. -/
theorem voseLoopF_length {α : Type} :
    ∀ (fuel : ℕ) (small large : List (ℚ × α)),
      small.length + large.length ≤ fuel →
      (voseLoopF fuel small large).length = small.length + large.length
  | 0, small, large => by
    intro h
    have hs : small = [] := List.length_eq_zero.mp (by omega)
    have hl : large = [] := List.length_eq_zero.mp (by omega)
    subst hs
    subst hl
    rfl
  | fuel + 1, small, large => by
    intro h
    match small, large with
    | s :: ss, l :: ls =>
      simp only [voseLoopF]
      by_cases hw : l.1 + s.1 - 1 < 1
      · rw [if_pos hw, List.length_cons,
          voseLoopF_length fuel ((l.1 + s.1 - 1, l.2) :: ss) ls
            (by simp at h ⊢; omega)]
        simp
        omega
      · rw [if_neg hw, List.length_cons,
          voseLoopF_length fuel ss ((l.1 + s.1 - 1, l.2) :: ls)
            (by simp at h ⊢; omega)]
        simp
        omega
    | [], l :: ls =>
      simp only [voseLoopF, List.length_cons]
      rw [voseLoopF_length fuel [] ls (by simp at h ⊢; omega)]
      simp
    | s :: ss, [] =>
      simp only [voseLoopF, List.length_cons]
      rw [voseLoopF_length fuel ss [] (by simp at h ⊢; omega)]
      simp
    | [], [] => rfl

/-- Mass conservation of the alias loop: with the bucket invariants (small
values in `[0,1)`, large values at least 1) and the value sum equal to the
element count, the slots assign every outcome exactly the mass its elements
carried in. -/
theorem voseLoopF_mass {α : Type} [DecidableEq α] (o : α) :
    ∀ (fuel : ℕ) (small large : List (ℚ × α)),
      small.length + large.length ≤ fuel →
      (∀ e ∈ small, 0 ≤ e.1 ∧ e.1 < 1) →
      (∀ e ∈ large, 1 ≤ e.1) →
      sumVals small + sumVals large = small.length + large.length →
      slotMass (voseLoopF fuel small large) o
        = elemMass small o + elemMass large o
  | 0, small, large => by
    intro h _ _ _
    have hs : small = [] := List.length_eq_zero.mp (by omega)
    have hl : large = [] := List.length_eq_zero.mp (by omega)
    subst hs
    subst hl
    simp [voseLoopF, slotMass, elemMass]
  | fuel + 1, small, large => by
    intro h hs hl hsum
    match small, large with
    | s :: ss, l :: ls =>
      have hs0 : 0 ≤ s.1 ∧ s.1 < 1 := hs s (.head _)
      have hl0 : 1 ≤ l.1 := hl l (.head _)
      have hw0 : 0 ≤ l.1 + s.1 - 1 := by linarith [hs0.1]
      rw [sumVals_cons, sumVals_cons] at hsum
      simp only [List.length_cons] at h hsum
      simp only [voseLoopF]
      by_cases hw : l.1 + s.1 - 1 < 1
      · rw [if_pos hw, slotMass_cons,
          voseLoopF_mass o fuel ((l.1 + s.1 - 1, l.2) :: ss) ls
            (by simp; omega)
            (by
              intro e he
              rcases List.mem_cons.mp he with rfl | he'
              · exact ⟨hw0, hw⟩
              · exact hs e (.tail _ he'))
            (fun e he => hl e (.tail _ he))
            (by
              rw [sumVals_cons]
              simp only [List.length_cons]
              push_cast at hsum ⊢
              linarith),
          elemMass_cons, elemMass_cons, elemMass_cons]
        rcases eq_or_ne l.2 o with h2 | h2 <;>
          rcases eq_or_ne s.2 o with h1 | h1 <;>
          simp [h1, h2] <;> ring
      · rw [if_neg hw, slotMass_cons,
          voseLoopF_mass o fuel ss ((l.1 + s.1 - 1, l.2) :: ls)
            (by simp; omega)
            (fun e he => hs e (.tail _ he))
            (by
              intro e he
              rcases List.mem_cons.mp he with rfl | he'
              · exact not_lt.mp hw
              · exact hl e (.tail _ he'))
            (by
              rw [sumVals_cons]
              simp only [List.length_cons]
              push_cast at hsum ⊢
              linarith),
          elemMass_cons, elemMass_cons, elemMass_cons]
        rcases eq_or_ne l.2 o with h2 | h2 <;>
          rcases eq_or_ne s.2 o with h1 | h1 <;>
          simp [h1, h2] <;> ring
    | [], l :: ls =>
      have hl0 : 1 ≤ l.1 := hl l (.head _)
      have hls : (ls.length : ℚ) ≤ sumVals ls :=
        length_le_sumVals ls (fun e he => hl e (.tail _ he))
      rw [sumVals_cons] at hsum
      simp only [List.length_cons, List.length_nil] at hsum
      have hzero : sumVals ([] : List (ℚ × α)) = 0 := by simp [sumVals]
      rw [hzero] at hsum
      have hl1 : l.1 = 1 := by
        push_cast at hsum
        linarith
      simp only [voseLoopF]
      rw [slotMass_cons,
        voseLoopF_mass o fuel [] ls
          (by simp at h ⊢; omega)
          (by intro e he; simp at he)
          (fun e he => hl e (.tail _ he))
          (by
            rw [hzero]
            simp only [List.length_nil, Nat.cast_zero]
            push_cast at hsum ⊢
            linarith),
        elemMass_cons]
      have hem : elemMass ([] : List (ℚ × α)) o = 0 := by simp [elemMass]
      rw [hem]
      rcases eq_or_ne l.2 o with h2 | h2 <;> simp [h2, hl1]
    | s :: ss, [] =>
      exfalso
      have hlt : sumVals ss ≤ (ss.length : ℚ) :=
        sumVals_le_length ss (fun e he => (hs e (.tail _ he)).2)
      have hs0 : s.1 < 1 := (hs s (.head _)).2
      rw [sumVals_cons] at hsum
      have hzero : sumVals ([] : List (ℚ × α)) = 0 := by simp [sumVals]
      rw [hzero] at hsum
      simp only [List.length_cons, List.length_nil] at hsum
      push_cast at hsum
      linarith
    | [], [] => simp [voseLoopF, slotMass, elemMass]

/-- Every outcome stored in an alias slot comes from the small or large
bucket. -/
theorem voseLoopF_mem {α : Type} :
    ∀ (fuel : ℕ) (small large : List (ℚ × α)),
      ∀ slot ∈ voseLoopF fuel small large,
        slot.2.1 ∈ small.map (·.2) ++ large.map (·.2)
        ∧ slot.2.2 ∈ small.map (·.2) ++ large.map (·.2)
  | 0, small, large => by
    intro slot hslot
    simp [voseLoopF] at hslot
  | fuel + 1, small, large => by
    match small, large with
    | s :: ss, l :: ls =>
      intro slot hslot
      simp only [voseLoopF] at hslot
      by_cases hw : l.1 + s.1 - 1 < 1
      · rw [if_pos hw] at hslot
        rcases List.mem_cons.mp hslot with rfl | h'
        · constructor <;> simp
        · obtain ⟨h1, h2⟩ := voseLoopF_mem fuel _ _ slot h'
          simp only [List.map_cons, List.mem_append, List.mem_cons] at h1 h2 ⊢
          exact ⟨by tauto, by tauto⟩
      · rw [if_neg hw] at hslot
        rcases List.mem_cons.mp hslot with rfl | h'
        · constructor <;> simp
        · obtain ⟨h1, h2⟩ := voseLoopF_mem fuel _ _ slot h'
          simp only [List.map_cons, List.mem_append, List.mem_cons] at h1 h2 ⊢
          exact ⟨by tauto, by tauto⟩
    | [], l :: ls =>
      intro slot hslot
      simp only [voseLoopF] at hslot
      rcases List.mem_cons.mp hslot with rfl | h'
      · constructor <;> simp
      · obtain ⟨h1, h2⟩ := voseLoopF_mem fuel _ _ slot h'
        simp only [List.map_cons, List.map_nil, List.mem_append,
          List.mem_cons] at h1 h2 ⊢
        exact ⟨by tauto, by tauto⟩
    | s :: ss, [] =>
      intro slot hslot
      simp only [voseLoopF] at hslot
      rcases List.mem_cons.mp hslot with rfl | h'
      · constructor <;> simp
      · obtain ⟨h1, h2⟩ := voseLoopF_mem fuel _ _ slot h'
        simp only [List.map_cons, List.map_nil, List.mem_append,
          List.mem_cons] at h1 h2 ⊢
        exact ⟨by tauto, by tauto⟩
    | [], [] =>
      intro slot hslot
      simp [voseLoopF] at hslot

/-- Every slot cutoff is a probability: in `[0, 1]`. -/
theorem voseLoopF_prob {α : Type} :
    ∀ (fuel : ℕ) (small large : List (ℚ × α)),
      (∀ e ∈ small, 0 ≤ e.1 ∧ e.1 < 1) →
      (∀ e ∈ large, 1 ≤ e.1) →
      ∀ slot ∈ voseLoopF fuel small large, 0 ≤ slot.1 ∧ slot.1 ≤ 1
  | 0, small, large => by
    intro _ _ slot hslot
    simp [voseLoopF] at hslot
  | fuel + 1, small, large => by
    match small, large with
    | s :: ss, l :: ls =>
      intro hs hl slot hslot
      have hs0 := hs s (.head _)
      have hl0 := hl l (.head _)
      simp only [voseLoopF] at hslot
      by_cases hw : l.1 + s.1 - 1 < 1
      · rw [if_pos hw] at hslot
        rcases List.mem_cons.mp hslot with rfl | h'
        · exact ⟨hs0.1, le_of_lt hs0.2⟩
        · exact voseLoopF_prob fuel ((l.1 + s.1 - 1, l.2) :: ss) ls
            (by
              intro e he
              rcases List.mem_cons.mp he with rfl | he'
              · have hge : (0 : ℚ) ≤ l.1 + s.1 - 1 := by linarith [hs0.1]
                exact ⟨hge, hw⟩
              · exact hs e (.tail _ he'))
            (fun e he => hl e (.tail _ he)) slot h'
      · rw [if_neg hw] at hslot
        rcases List.mem_cons.mp hslot with rfl | h'
        · exact ⟨hs0.1, le_of_lt hs0.2⟩
        · exact voseLoopF_prob fuel ss ((l.1 + s.1 - 1, l.2) :: ls)
            (fun e he => hs e (.tail _ he))
            (by
              intro e he
              rcases List.mem_cons.mp he with rfl | he'
              · exact not_lt.mp hw
              · exact hl e (.tail _ he')) slot h'
    | [], l :: ls =>
      intro hs hl slot hslot
      simp only [voseLoopF] at hslot
      rcases List.mem_cons.mp hslot with rfl | h'
      · exact ⟨zero_le_one, le_refl 1⟩
      · exact voseLoopF_prob fuel [] ls (by intro e he; simp at he)
          (fun e he => hl e (.tail _ he)) slot h'
    | s :: ss, [] =>
      intro hs hl slot hslot
      simp only [voseLoopF] at hslot
      rcases List.mem_cons.mp hslot with rfl | h'
      · exact ⟨zero_le_one, le_refl 1⟩
      · exact voseLoopF_prob fuel ss [] (fun e he => hs e (.tail _ he))
          (by intro e he; simp at he) slot h'
    | [], [] =>
      intro _ _ slot hslot
      simp [voseLoopF] at hslot

/-- **C3.** A successfully constructed Vose sampler over `n` weighted pairs
has exactly `n` alias slots, each holding a cutoff in `[0, 1]` and two
outcomes drawn from the input list; `random()` is a function of exactly two
uniform draws, and for any draws in `[0, 1)` it returns an outcome of the
input list; modelling the two draws as independent ideal uniforms, the
probability of returning outcome `o` — slot `⌊u₁·n⌋` is drawn with
probability `1/n` and its cutoff comparison succeeds with probability equal
to the cutoff — is exactly `(Σ_{i : oᵢ = o} wᵢ) / Σw`, i.e. `wᵢ/Σw` for
pairwise-distinct outcomes. -/
theorem vose_sampler_correct {α : Type} [DecidableEq α]
    (elements : List (ℚ × α)) (table : List (ℚ × α × α))
    (htab : voseInit elements = .ok table) :
    table.length = elements.length
    ∧ (∀ slot ∈ table, (0 ≤ slot.1 ∧ slot.1 ≤ 1)
        ∧ slot.2.1 ∈ elements.map (·.2) ∧ slot.2.2 ∈ elements.map (·.2))
    ∧ (∀ u1 u2 : ℚ, 0 ≤ u1 → u1 < 1 →
        ∃ out, voseRandom table u1 u2 = some out ∧ out ∈ elements.map (·.2))
    ∧ (∀ o, voseMass table o = elemMass elements o / sumVals elements) := by
  unfold voseInit at htab
  by_cases hneg : elements.any (fun e => e.1 < 0) = true
  · rw [if_pos hneg] at htab
    exact absurd htab (by simp)
  rw [if_neg hneg] at htab
  simp only [] at htab
  by_cases ht : 0 < sumVals elements
  case neg =>
    rw [if_neg ht] at htab
    exact absurd htab (by simp)
  rw [if_pos ht] at htab
  set t := sumVals elements with htdef
  set norm := elements.map (fun e => (e.1 / t * (elements.length : ℚ), e.2))
    with hnormdef
  set smallI := (norm.filter (fun e => e.1 < 1)).reverse with hsmalldef
  set largeI := (norm.filter (fun e => 1 ≤ e.1)).reverse with hlargedef
  have htabeq : table = voseLoopF (smallI.length + largeI.length) smallI largeI :=
    (Except.ok.inj htab).symm
  have hw : ∀ e ∈ elements, 0 ≤ e.1 := fun e he =>
    not_lt.mp (fun hlt => hneg (List.any_eq_true.mpr ⟨e, he, by simpa using hlt⟩))
  have hsmall_mem : ∀ e ∈ smallI, e ∈ norm ∧ e.1 < 1 := by
    intro e he
    rw [hsmalldef, List.mem_reverse] at he
    exact ⟨List.mem_of_mem_filter he, by simpa using List.of_mem_filter he⟩
  have hlarge_mem : ∀ e ∈ largeI, e ∈ norm ∧ 1 ≤ e.1 := by
    intro e he
    rw [hlargedef, List.mem_reverse] at he
    exact ⟨List.mem_of_mem_filter he, by simpa using List.of_mem_filter he⟩
  have hnorm_nonneg : ∀ e ∈ norm, 0 ≤ e.1 := by
    intro e he
    rw [hnormdef] at he
    obtain ⟨x, hx, rfl⟩ := List.mem_map.mp he
    exact mul_nonneg (div_nonneg (hw x hx) (le_of_lt ht)) (Nat.cast_nonneg _)
  have hsI : ∀ e ∈ smallI, 0 ≤ e.1 ∧ e.1 < 1 := fun e he =>
    ⟨hnorm_nonneg e (hsmall_mem e he).1, (hsmall_mem e he).2⟩
  have hlI : ∀ e ∈ largeI, 1 ≤ e.1 := fun e he => (hlarge_mem e he).2
  have hfiltereq : norm.filter (fun e => 1 ≤ e.1)
      = norm.filter (fun e => !(decide (e.1 < 1))) := by
    apply List.filter_congr
    intro e _
    rw [← decide_not]
    exact decide_eq_decide.mpr not_lt.symm
  have hperm : (norm.filter (fun e => e.1 < 1))
      ++ (norm.filter (fun e => 1 ≤ e.1)) |>.Perm norm := by
    rw [hfiltereq]
    exact List.filter_append_perm _ _
  have hnormlen : norm.length = elements.length := by
    rw [hnormdef, List.length_map]
  have hlen : smallI.length + largeI.length = elements.length := by
    have hpl := hperm.length_eq
    simp only [List.length_append] at hpl
    have h1 : smallI.length = (norm.filter (fun e => e.1 < 1)).length := by
      rw [hsmalldef, List.length_reverse]
    have h2 : largeI.length = (norm.filter (fun e => 1 ≤ e.1)).length := by
      rw [hlargedef, List.length_reverse]
    omega
  have hsum_norm : sumVals norm = (elements.length : ℚ) := by
    rw [hnormdef, sumVals_norm_scale, ← htdef, div_self (ne_of_gt ht), one_mul]
  have hsum_buckets : sumVals smallI + sumVals largeI
      = (smallI.length : ℚ) + largeI.length := by
    rw [hsmalldef, hlargedef, sumVals_reverse, sumVals_reverse]
    have hps := sumVals_perm hperm
    rw [sumVals_append] at hps
    rw [hps, hsum_norm, ← hlen]
    push_cast
    ring
  have hnonempty : elements ≠ [] := by
    intro hemp
    rw [htdef, hemp] at ht
    simp [sumVals] at ht
  have hn0 : ((elements.length : ℚ)) ≠ 0 :=
    Nat.cast_ne_zero.mpr (Nat.pos_iff_ne_zero.mp (List.length_pos.mpr hnonempty))
  have hlen_table : table.length = elements.length := by
    rw [htabeq, voseLoopF_length _ _ _ (le_refl _)]
    exact hlen
  have hslots : ∀ slot ∈ table, (0 ≤ slot.1 ∧ slot.1 ≤ 1)
      ∧ slot.2.1 ∈ elements.map (·.2) ∧ slot.2.2 ∈ elements.map (·.2) := by
    intro slot hslot
    rw [htabeq] at hslot
    have hp := voseLoopF_prob _ smallI largeI hsI hlI slot hslot
    have hm := voseLoopF_mem _ smallI largeI slot hslot
    have houts : ∀ x, x ∈ smallI.map (·.2) ++ largeI.map (·.2) →
        x ∈ elements.map (·.2) := by
      intro x hx
      have hx' : x ∈ norm.map (·.2) := by
        rcases List.mem_append.mp hx with hx | hx
        · obtain ⟨e, he, rfl⟩ := List.mem_map.mp hx
          exact List.mem_map.mpr ⟨e, (hsmall_mem e he).1, rfl⟩
        · obtain ⟨e, he, rfl⟩ := List.mem_map.mp hx
          exact List.mem_map.mpr ⟨e, (hlarge_mem e he).1, rfl⟩
      rw [hnormdef, List.map_map] at hx'
      exact hx'
    exact ⟨hp, houts _ hm.1, houts _ hm.2⟩
  have hrandom : ∀ u1 u2 : ℚ, 0 ≤ u1 → u1 < 1 →
      ∃ out, voseRandom table u1 u2 = some out
        ∧ out ∈ elements.map (·.2) := by
    intro u1 u2 hu0 hu1
    have hlpos : 0 < table.length := by
      rw [hlen_table]
      exact List.length_pos.mpr hnonempty
    have hidx : Int.toNat ⌊u1 * (table.length : ℚ)⌋ < table.length := by
      have hfl : ⌊u1 * (table.length : ℚ)⌋ < (table.length : ℤ) := by
        rw [Int.floor_lt]
        push_cast
        calc u1 * (table.length : ℚ) < 1 * table.length := by
              exact mul_lt_mul_of_pos_right hu1 (by exact_mod_cast hlpos)
          _ = table.length := one_mul _
      have hfl0 : 0 ≤ ⌊u1 * (table.length : ℚ)⌋ :=
        Int.floor_nonneg.mpr (mul_nonneg hu0 (Nat.cast_nonneg _))
      omega
    have hget : table.get? (Int.toNat ⌊u1 * (table.length : ℚ)⌋)
        = some (table.get ⟨Int.toNat ⌊u1 * (table.length : ℚ)⌋, hidx⟩) :=
      List.get?_eq_get hidx
    set slot := table.get ⟨Int.toNat ⌊u1 * (table.length : ℚ)⌋, hidx⟩
      with hslotdef
    refine ⟨if u2 ≤ slot.1 then slot.2.1 else slot.2.2, ?_, ?_⟩
    · unfold voseRandom
      rw [hget]
    · have hmem : slot ∈ table := by
        rw [hslotdef]
        exact table.get_mem _ _
      by_cases hc : u2 ≤ slot.1
      · rw [if_pos hc]
        exact (hslots slot hmem).2.1
      · rw [if_neg hc]
        exact (hslots slot hmem).2.2
  have hmass : ∀ o, voseMass table o = elemMass elements o / t := by
    intro o
    unfold voseMass
    rw [hlen_table, htabeq,
      voseLoopF_mass o _ smallI largeI (le_refl _) hsI hlI hsum_buckets,
      hsmalldef, hlargedef, elemMass_reverse, elemMass_reverse]
    have hpm := elemMass_perm hperm o
    rw [elemMass_append] at hpm
    rw [hpm, hnormdef, elemMass_norm_scale, mul_div_assoc, div_self hn0,
      mul_one]
  exact ⟨hlen_table, hslots, hrandom, hmass⟩

/-- Witness for C3 on the spec's `[(0.5, A), (0.3, B), (0.2, C)]` scenario:
the construction yields the concrete three-slot table `exTable`, and the
sampler's outcome masses equal the normalised input weights. -/
theorem vose_sampler_correct_witness :
    voseInit exElements = .ok exTable
    ∧ exTable.length = exElements.length
    ∧ (∃ out, voseRandom exTable (1/3) (1/2) = some out
        ∧ out ∈ exElements.map (·.2))
    ∧ (∀ o, voseMass exTable o = elemMass exElements o / sumVals exElements) :=
  ⟨by with_unfolding_all rfl,
   (vose_sampler_correct exElements exTable (by with_unfolding_all rfl)).1,
   (vose_sampler_correct exElements exTable (by with_unfolding_all rfl)).2.2.1
     (1/3) (1/2) (by norm_num) (by norm_num),
   (vose_sampler_correct exElements exTable (by with_unfolding_all rfl)).2.2.2⟩

end Sparsepy
